import Mathlib

/-!
Verification of the tiling / padding / inference / stitching engine in
`fpoffline/denoise.py` (`denoise_torch`, `torch_grid_window`, `denoise_numpy`).

The embedding follows the Python source line by line:

* `patchsPerDim`, `windowEndIdx`, `bnd` model the boundary computation
  (`patchs_per_dim = int(len(data)/patch_size)` and the `window_end_idx`
  list).  For positive integers in the range used here, Python's
  `int(a / b)` (truncated IEEE double division) coincides with exact
  floor division, which is how it is modelled.
* `writeTile`, `stitch` model the nested per-tile loop that accumulates
  trimmed patches into the zero-initialized `full` buffer with `+=`.
* `denoiseTorchRun` / `denoiseNumpyRun` are trace semantics recording the
  order of artifact loads, model constructions and inference calls, and
  the Python exceptions raised (bare `assert`, `np.reshape` size errors,
  broadcasting errors on the `+=` write).
* A small heap model (`denoiseTorchHeap`, `denoiseNumpyHeap`) tracks which
  buffers are written, to settle the no-mutation (frame) claim.
* The portable im2col backend and the direct convolution are modelled over
  exact rationals to compare the two inference formulations.

Pixel values are modelled as rationals (exact arithmetic); IEEE floating
point rounding is outside the model and noted where it matters.
-/

namespace Denoise

/-- The fixed FVC image edge length: the source hardcodes 6000 in
`np.reshape(data, (1, 1, 6000, 6000))` and `np.zeros((1, 1, 6000, 6000))`. -/
def imageSize : ℕ := 6000

/-- `patchs_per_dim = int(len(data) / patch_size)` with a general first-axis
length `n` (`len(data)`).  Exact floor division; for the integer ranges
involved this agrees with Python's truncated float division. -/
def patchsPerDimGen (n p : ℕ) : ℕ := n / p

/-- The `window_end_idx` list built by the source loop
`for k in range(patchs_per_dim): window_end_idx.append(patch_size*(k))`
followed by `window_end_idx.append(len(data))`. -/
def windowEndIdxGen (n p : ℕ) : List ℕ :=
  (List.range (patchsPerDimGen n p)).map (fun k => p * k) ++ [n]

/-- `patchs_per_dim` for the standard 6000x6000 input (`len(data) = 6000`). -/
def patchsPerDim (p : ℕ) : ℕ := patchsPerDimGen imageSize p

/-- `window_end_idx` for the standard 6000x6000 input. -/
def windowEndIdx (p : ℕ) : List ℕ := windowEndIdxGen imageSize p

/-- `window_end_idx[k]` (out-of-range indices default to the endpoint `n`,
which is never exercised by the loops). -/
def bndGen (n p k : ℕ) : ℕ := (windowEndIdxGen n p).getD k n

/-- Boundary `window_end_idx[k]` for the standard 6000x6000 input. -/
def bnd (p k : ℕ) : ℕ := bndGen imageSize p k

/-- Number of tiles per axis: `len(window_end_idx) - 1`, the range bound of
both nested loops. -/
def numTilesGen (n p : ℕ) : ℕ := (windowEndIdxGen n p).length - 1

/-- The sequence of `(i, j)` tile pairs visited by
`for j in range(len(window_end_idx)-1): for i in range(len(window_end_idx)-1):`
(outer loop over `j`, inner loop over `i`). -/
def tilePairsGen (n p : ℕ) : List (ℕ × ℕ) :=
  (List.range (numTilesGen n p)).flatMap
    (fun j => (List.range (numTilesGen n p)).map (fun i => (i, j)))

/-- Tile pairs for the standard 6000x6000 input. -/
def tilePairs (p : ℕ) : List (ℕ × ℕ) := tilePairsGen imageSize p

/- ### Closed forms and basic facts about the boundary list -/

theorem windowEndIdxGen_length (n p : ℕ) :
    (windowEndIdxGen n p).length = patchsPerDimGen n p + 1 := by
  simp [windowEndIdxGen]

theorem numTilesGen_eq (n p : ℕ) : numTilesGen n p = patchsPerDimGen n p := by
  simp [numTilesGen, windowEndIdxGen_length]

theorem bndGen_of_lt {n p k : ℕ} (h : k < patchsPerDimGen n p) :
    bndGen n p k = p * k := by
  unfold bndGen windowEndIdxGen
  rw [List.getD_eq_getElem?_getD, List.getElem?_append_left (by simpa using h)]
  simp [h]

theorem bndGen_of_ge {n p k : ℕ} (h : patchsPerDimGen n p ≤ k) :
    bndGen n p k = n := by
  unfold bndGen windowEndIdxGen
  rcases eq_or_lt_of_le h with rfl | hlt
  · rw [List.getD_eq_getElem?_getD, List.getElem?_append_right (by simp)]
    simp
  · rw [List.getD_eq_getElem?_getD, List.getElem?_eq_none (by simp; omega)]
    rfl

theorem bnd_of_lt {p k : ℕ} (h : k < patchsPerDim p) : bnd p k = p * k :=
  bndGen_of_lt h

theorem bnd_of_ge {p k : ℕ} (h : patchsPerDim p ≤ k) : bnd p k = imageSize :=
  bndGen_of_ge h

theorem bnd_zero {p : ℕ} (hp : 1 ≤ patchsPerDim p) : bnd p 0 = 0 := by
  have := bndGen_of_lt (n := imageSize) (p := p) (k := 0) hp
  simpa using this

theorem bnd_top (p : ℕ) : bnd p (patchsPerDim p) = imageSize :=
  bndGen_of_ge le_rfl

/-- Interior boundaries stay strictly below the image size. -/
theorem bnd_lt_imageSize {p k : ℕ} (hp : 1 ≤ patchsPerDim p)
    (hk : k < patchsPerDim p) : bnd p k < imageSize := by
  have hp0 : p ≠ 0 := by
    intro h; rw [h] at hp; simp [patchsPerDim, patchsPerDimGen] at hp
  have h1 : bnd p k = p * k := bnd_of_lt hk
  have h2 : p * patchsPerDim p ≤ imageSize := by
    simpa [patchsPerDim, patchsPerDimGen, Nat.mul_comm] using
      Nat.div_mul_le_self imageSize p
  have h3 : p * k + p ≤ p * patchsPerDim p := by
    have : k + 1 ≤ patchsPerDim p := hk
    calc p * k + p = p * (k + 1) := by ring
    _ ≤ p * patchsPerDim p := Nat.mul_le_mul_left p this
  omega

/-- All boundaries are at most the image size. -/
theorem bnd_le_imageSize (p k : ℕ) : bnd p k ≤ imageSize := by
  rcases lt_or_le k (patchsPerDim p) with h | h
  · rw [bnd_of_lt h]
    have h2 : p * patchsPerDim p ≤ imageSize := by
      simpa [patchsPerDim, patchsPerDimGen, Nat.mul_comm] using
        Nat.div_mul_le_self imageSize p
    have : p * k ≤ p * patchsPerDim p := Nat.mul_le_mul_left p h.le
    omega
  · rw [bnd_of_ge h]

/-- Adjacent boundaries are strictly increasing over the tile range. -/
theorem bnd_lt_succ {p k : ℕ} (hp : 1 ≤ patchsPerDim p)
    (hk : k < patchsPerDim p) : bnd p k < bnd p (k + 1) := by
  have hp0 : 1 ≤ p := by
    by_contra h
    have : p = 0 := by omega
    rw [this] at hp; simp [patchsPerDim, patchsPerDimGen] at hp
  rcases lt_or_le (k + 1) (patchsPerDim p) with h | h
  · rw [bnd_of_lt hk, bnd_of_lt h]
    have : k < k + 1 := Nat.lt_succ_self k
    exact (Nat.mul_lt_mul_left hp0).mpr this
  · rw [bnd_of_ge h]
    exact bnd_lt_imageSize hp hk

/-- Boundaries are monotone in the index. -/
theorem bnd_mono (p : ℕ) {k k' : ℕ} (h : k ≤ k') : bnd p k ≤ bnd p k' := by
  induction k' with
  | zero => simp_all
  | succ m ih =>
    rcases Nat.lt_or_ge k (m + 1) with hlt | hge
    · have hk : k ≤ m := by omega
      refine le_trans (ih hk) ?_
      rcases lt_or_le m (patchsPerDim p) with hm | hm
      · rcases lt_or_le (m + 1) (patchsPerDim p) with hm1 | hm1
        · rw [bnd_of_lt hm, bnd_of_lt hm1]
          exact Nat.mul_le_mul_left p (Nat.le_succ m)
        · rw [bnd_of_ge hm1]
          exact bnd_le_imageSize p m
      · rw [bnd_of_ge hm, bnd_of_ge (by omega)]
    · have : k = m + 1 := by omega
      subst this; rfl

/- ### Interval cover and uniqueness -/

/-- Every row/column index below the image size lies in exactly one boundary
interval; the covering index is `min (r / p) (patchsPerDim p - 1)`. -/
theorem bnd_cover {p r : ℕ} (hp : 1 ≤ patchsPerDim p) (hr : r < imageSize) :
    ∃ i, i < patchsPerDim p ∧ bnd p i ≤ r ∧ r < bnd p (i + 1) := by
  have hp0 : 1 ≤ p := by
    by_contra h
    have : p = 0 := by omega
    rw [this] at hp; simp [patchsPerDim, patchsPerDimGen] at hp
  refine ⟨min (r / p) (patchsPerDim p - 1), ?_, ?_, ?_⟩
  · omega
  · rcases le_total (r / p) (patchsPerDim p - 1) with h | h
    · rw [min_eq_left h, bnd_of_lt (by omega)]
      calc p * (r / p) = r / p * p := Nat.mul_comm _ _
      _ ≤ r := Nat.div_mul_le_self r p
    · rw [min_eq_right h, bnd_of_lt (by omega)]
      have h1 : p * (patchsPerDim p - 1) ≤ p * (r / p) :=
        Nat.mul_le_mul_left p h
      have h2 : p * (r / p) ≤ r := by
        calc p * (r / p) = r / p * p := Nat.mul_comm _ _
        _ ≤ r := Nat.div_mul_le_self r p
      omega
  · rcases lt_or_le (r / p) (patchsPerDim p - 1) with h | h
    · rw [min_eq_left h.le, bnd_of_lt (by omega)]
      have := Nat.div_add_mod r p
      have hm := Nat.mod_lt r (show 0 < p by omega)
      calc r = p * (r / p) + r % p := by omega
      _ < p * (r / p) + p := by omega
      _ = p * (r / p + 1) := by ring
    · rw [min_eq_right (by omega)]
      have : patchsPerDim p - 1 + 1 = patchsPerDim p := by omega
      rw [this, bnd_top]
      exact hr

/-- Boundary intervals are pairwise disjoint: a point cannot lie in two
intervals with distinct indices. -/
theorem bnd_unique {p i i' r : ℕ}
    (h1 : bnd p i ≤ r) (h2 : r < bnd p (i + 1))
    (h3 : bnd p i' ≤ r) (h4 : r < bnd p (i' + 1)) : i = i' := by
  by_contra hne
  rcases Nat.lt_or_ge i i' with h | h
  · have : bnd p (i + 1) ≤ bnd p i' := bnd_mono p h
    omega
  · have hlt : i' < i := by omega
    have : bnd p (i' + 1) ≤ bnd p i := bnd_mono p hlt
    omega

/- ### The stitching loop -/

/-- The destination window of tile `(i, j)`: the pixels of the `full` buffer
written by `full[:, :, window_end_idx[i]:window_end_idx[i+1],
window_end_idx[j]:window_end_idx[j+1]] += denoised_patch`. -/
def inWindow (p i j r c : ℕ) : Prop :=
  bnd p i ≤ r ∧ r < bnd p (i + 1) ∧ bnd p j ≤ c ∧ c < bnd p (j + 1)

instance (p i j r c : ℕ) : Decidable (inWindow p i j r c) := by
  unfold inWindow; infer_instance

/-- One `+=` write of a (trimmed) tile patch into the accumulator image:
inside the destination window the patch value is added, elsewhere the
accumulator is unchanged. -/
def writeTile (p : ℕ) (patch : ℕ → ℕ → ℕ → ℕ → ℚ) (g : ℕ → ℕ → ℚ)
    (ij : ℕ × ℕ) : ℕ → ℕ → ℚ :=
  fun r c =>
    if inWindow p ij.1 ij.2 r c then
      g r c + patch ij.1 ij.2 (r - bnd p ij.1) (c - bnd p ij.2)
    else g r c

/-- The full nested loop of `denoise_torch` (lines 171-194) and
`denoise_numpy` (lines 304-326): starting from the zero buffer
`np.zeros((1, 1, 6000, 6000))`, accumulate every tile's trimmed patch with
`+=`.  `patch i j` is the trimmed denoised patch of tile `(i, j)` in local
coordinates. -/
def stitch (p : ℕ) (patch : ℕ → ℕ → ℕ → ℕ → ℚ) : ℕ → ℕ → ℚ :=
  (tilePairs p).foldl (writeTile p patch) (fun _ _ => 0)

/-- The trim `denoised_patch[:, :, 10:-10, 10:-10]` applied to a patch in
local coordinates: the trimmed patch at `(r, c)` reads the raw inference
output at `(r + 10, c + 10)`.  The margin is the hardcoded constant 10 of
the source, not the `padding` parameter. -/
def trimPatch (raw : ℕ → ℕ → ℚ) : ℕ → ℕ → ℚ := fun r c => raw (r + 10) (c + 10)

theorem tilePairs_mem {p : ℕ} {ij : ℕ × ℕ} :
    ij ∈ tilePairs p ↔ ij.1 < patchsPerDim p ∧ ij.2 < patchsPerDim p := by
  cases ij with
  | mk i j =>
    simp only [tilePairs, tilePairsGen, List.mem_flatMap, List.mem_map,
      List.mem_range, numTilesGen_eq]
    constructor
    · rintro ⟨j', hj', i', hi', h⟩
      cases h
      exact ⟨hi', hj'⟩
    · rintro ⟨hi, hj⟩
      exact ⟨j, hj, i, hi, rfl⟩

theorem tilePairs_nodup (p : ℕ) : (tilePairs p).Nodup := by
  unfold tilePairs tilePairsGen
  refine List.nodup_flatMap.2 ⟨?_, ?_⟩
  · intro j _
    exact (List.nodup_range _).map (fun a b h => by
      simpa using congrArg Prod.fst h)
  · refine (List.nodup_range _).imp ?_
    intro j₁ j₂ hne
    simp only [Function.onFun, List.disjoint_left]
    intro x hx₁ hx₂
    simp only [List.mem_map, List.mem_range] at hx₁ hx₂
    obtain ⟨i₁, _, rfl⟩ := hx₁
    obtain ⟨i₂, _, h⟩ := hx₂
    exact hne (by simpa using (congrArg Prod.snd h).symm)

theorem tilePairs_length (p : ℕ) :
    (tilePairs p).length = patchsPerDim p * patchsPerDim p := by
  have key : ∀ n : ℕ,
      ((List.range n).flatMap (fun j => (List.range n).map (fun i => (i, j)))).length
        = n * n := by
    intro n
    rw [List.length_flatMap]
    have h1 : ((List.range n).map
        (List.length ∘ fun j => (List.range n).map fun i => (i, j)))
          = List.replicate n n := by
      rw [List.eq_replicate_iff]
      constructor
      · simp
      · intro b hb
        simp only [List.mem_map, Function.comp] at hb
        obtain ⟨j, _, rfl⟩ := hb
        simp
    rw [h1, List.sum_replicate, smul_eq_mul]
  unfold tilePairs tilePairsGen
  rw [numTilesGen_eq]
  exact key _

/-- Unfolding one `+=` write: the accumulated value at a pixel is the previous
value plus the patch contribution when the pixel is in the tile's window. -/
theorem foldl_writeTile_eval (p : ℕ) (patch : ℕ → ℕ → ℕ → ℕ → ℚ)
    (l : List (ℕ × ℕ)) (g : ℕ → ℕ → ℚ) (r c : ℕ) :
    (l.foldl (writeTile p patch) g) r c =
      g r c + ((l.filter (fun ij => decide (inWindow p ij.1 ij.2 r c))).map
        (fun ij => patch ij.1 ij.2 (r - bnd p ij.1) (c - bnd p ij.2))).sum := by
  induction l generalizing g with
  | nil => simp
  | cons t ts ih =>
    rw [List.foldl_cons, ih]
    by_cases h : inWindow p t.1 t.2 r c
    · rw [List.filter_cons_of_pos (by simpa using h)]
      simp only [List.map_cons, List.sum_cons, writeTile, if_pos h]
      ring
    · rw [List.filter_cons_of_neg (by simpa using h)]
      simp only [writeTile, if_neg h]

/-- A nodup list whose members all equal `x`, and which contains `x`,
is the singleton `[x]`. -/
theorem nodup_all_eq_singleton {α : Type} {l : List α} {x : α}
    (hn : l.Nodup) (hx : x ∈ l) (ha : ∀ y ∈ l, y = x) : l = [x] := by
  induction l with
  | nil => cases hx
  | cons a t ih =>
    have hax : a = x := ha a (List.mem_cons_self a t)
    subst hax
    have ht : t = [] := by
      cases t with
      | nil => rfl
      | cons b t' =>
        have hb : b = a := ha b (by simp)
        subst hb
        simp at hn
    simp [ht]

/-- A nonempty destination window forces the tile index into the grid
range: for `i ≥ patchs_per_dim` both interval ends equal the image size. -/
theorem inWindow_lt {p i j r c : ℕ} (h : inWindow p i j r c) :
    i < patchsPerDim p ∧ j < patchsPerDim p := by
  obtain ⟨h1, h2, h3, h4⟩ := h
  constructor
  · by_contra hb
    rw [bnd_of_ge (by omega)] at h1
    have := bnd_le_imageSize p (i + 1)
    omega
  · by_contra hb
    rw [bnd_of_ge (by omega)] at h3
    have := bnd_le_imageSize p (j + 1)
    omega

/-- Two `+=` writes of different tiles commute (pointwise, by commutativity
and associativity of addition). -/
theorem writeTile_comm (p : ℕ) (patch : ℕ → ℕ → ℕ → ℕ → ℚ)
    (g : ℕ → ℕ → ℚ) (t₁ t₂ : ℕ × ℕ) :
    writeTile p patch (writeTile p patch g t₁) t₂ =
      writeTile p patch (writeTile p patch g t₂) t₁ := by
  funext r c
  simp only [writeTile]
  split_ifs <;> ring

/-- Folding a right-commutative operation over a list is invariant under
permutations of the list. -/
theorem foldl_perm_of_comm {α β : Type} (f : β → α → β)
    (hf : ∀ b x y, f (f b x) y = f (f b y) x) {l₁ l₂ : List α}
    (hp : l₁.Perm l₂) : ∀ b, l₁.foldl f b = l₂.foldl f b := by
  induction hp with
  | nil => intro b; rfl
  | cons x _ ih => intro b; simp only [List.foldl_cons]; exact ih _
  | swap x y l => intro b; simp only [List.foldl_cons]; rw [hf]
  | trans _ _ ih₁ ih₂ => intro b; rw [ih₁ b, ih₂ b]

/-- **C1.** For every `patch_size` with `patches_per_dim = ⌊6000/patch_size⌋ ≥ 1`
(padding fixed at 10 so shapes line up), the trimmed destination windows
`[B i, B (i+1)) × [B j, B (j+1))` written by `denoise_torch` and
`denoise_numpy` are pairwise disjoint (a pixel in two windows forces equal
tile indices), their union covers every pixel of the 6000×6000 output, and
the `+=` accumulation into the zero-initialized buffer is equivalent to
direct assignment: the stitched value at a covered pixel is exactly the one
covering tile's trimmed-patch value. -/
theorem claim_C1 (p : ℕ) (hp : 1 ≤ patchsPerDim p) :
    (∀ i j i' j' r c, inWindow p i j r c → inWindow p i' j' r c →
      i = i' ∧ j = j') ∧
    (∀ r c, r < imageSize → c < imageSize →
      ∃ i j, i < patchsPerDim p ∧ j < patchsPerDim p ∧ inWindow p i j r c) ∧
    (∀ (patch : ℕ → ℕ → ℕ → ℕ → ℚ) (i j r c : ℕ), inWindow p i j r c →
      stitch p patch r c = patch i j (r - bnd p i) (c - bnd p j)) := by
  refine ⟨?_, ?_, ?_⟩
  · intro i j i' j' r c h h'
    obtain ⟨h1, h2, h3, h4⟩ := h
    obtain ⟨h1', h2', h3', h4'⟩ := h'
    exact ⟨bnd_unique h1 h2 h1' h2', bnd_unique h3 h4 h3' h4'⟩
  · intro r c hr hc
    obtain ⟨i, hi, hir, hir'⟩ := bnd_cover hp hr
    obtain ⟨j, hj, hjc, hjc'⟩ := bnd_cover hp hc
    exact ⟨i, j, hi, hj, hir, hir', hjc, hjc'⟩
  · intro patch i j r c hw
    obtain ⟨hi, hj⟩ := inWindow_lt hw
    rw [stitch, foldl_writeTile_eval]
    have hfil : (tilePairs p).filter
        (fun ij => decide (inWindow p ij.1 ij.2 r c)) = [(i, j)] := by
      apply nodup_all_eq_singleton
      · exact (tilePairs_nodup p).filter _
      · rw [List.mem_filter]
        exact ⟨tilePairs_mem.2 ⟨hi, hj⟩, by simpa using hw⟩
      · intro y hy
        rw [List.mem_filter] at hy
        have hwy : inWindow p y.1 y.2 r c := by simpa using hy.2
        obtain ⟨e1, e2⟩ : y.1 = i ∧ y.2 = j := by
          obtain ⟨a1, a2, a3, a4⟩ := hwy
          obtain ⟨b1, b2, b3, b4⟩ := hw
          exact ⟨bnd_unique a1 a2 b1 b2, bnd_unique a3 a4 b3 b4⟩
        cases y
        simp_all
    rw [hfil]
    simp

/-- Witness for C1 at `patch_size = 2000`: pixel `(2500, 100)` lies in the
window of tile `(1, 0)` and the stitched image there equals that tile's
patch value. -/
theorem claim_C1_witness :
    stitch 2000 (fun i j r c => (i * 1000 + j * 100 + r + c : ℚ)) 2500 100 =
      (1 * 1000 + 0 * 100 + 500 + 100 : ℚ) :=
  (claim_C1 2000 (by decide)).2.2 _ 1 0 2500 100
    (by refine ⟨?_, ?_, ?_, ?_⟩ <;> decide)

/-- **C4.** For every `patch_size` with `1 ≤ patch_size ≤ 6000`, the boundary
list `window_end_idx` is `[0, p, 2p, …, (patches_per_dim − 1)·p, 6000]`
(strictly increasing, remainder folded into the last interval); for
`patch_size = 2000` the boundaries are `[0, 2000, 4000, 6000]` and the
tile loop visits exactly 9 tile index pairs. -/
theorem claim_C4 (p : ℕ) (h1 : 1 ≤ p) (h6 : p ≤ imageSize) :
    List.Pairwise (· < ·) (windowEndIdx p) ∧
    (windowEndIdx p).getLast? = some imageSize ∧
    (∀ k, k < patchsPerDim p → bnd p k = p * k) ∧
    bnd p 0 = 0 ∧ bnd p (patchsPerDim p) = imageSize ∧
    patchsPerDim p = imageSize / p ∧
    windowEndIdx 2000 = [0, 2000, 4000, 6000] ∧
    (tilePairs 2000).length = 9 := by
  have hp : 1 ≤ patchsPerDim p := by
    rw [patchsPerDim, patchsPerDimGen]
    exact (Nat.one_le_div_iff (by omega)).2 h6
  refine ⟨?_, ?_, fun k hk => bnd_of_lt hk, bnd_zero hp, bnd_top p, rfl,
    by decide, by decide⟩
  · unfold windowEndIdx windowEndIdxGen
    rw [List.pairwise_append]
    refine ⟨?_, by simp, ?_⟩
    · rw [List.pairwise_map]
      refine List.Pairwise.imp ?_ (List.pairwise_lt_range _)
      intro a b hab
      exact Nat.mul_lt_mul_of_le_of_lt (le_refl p) hab (by omega)
    · intro x hx y hy
      simp only [List.mem_singleton] at hy
      subst hy
      simp only [List.mem_map, List.mem_range] at hx
      obtain ⟨k, hk, rfl⟩ := hx
      have := bnd_lt_imageSize (p := p) hp hk
      rwa [bnd_of_lt hk] at this
  · unfold windowEndIdx windowEndIdxGen
    simp

/-- Witness for C4 at `patch_size = 2000`. -/
theorem claim_C4_witness :
    List.Pairwise (· < ·) (windowEndIdx 2000) ∧
    (windowEndIdx 2000).getLast? = some imageSize ∧
    (∀ k, k < patchsPerDim 2000 → bnd 2000 k = 2000 * k) ∧
    bnd 2000 0 = 0 ∧ bnd 2000 (patchsPerDim 2000) = imageSize ∧
    patchsPerDim 2000 = imageSize / 2000 ∧
    windowEndIdx 2000 = [0, 2000, 4000, 6000] ∧
    (tilePairs 2000).length = 9 :=
  claim_C4 2000 (by decide) (by decide)

/-- **C9.** The stitched output is independent of the order in which tiles
are processed: folding the per-tile `+=` writes over any permutation of the
tile index pairs yields the same image as the reference nested-loop order.
Each tile's patch depends only on the tile indices (it is read from the
shared padded input), never on the accumulator. -/
theorem claim_C9 (p : ℕ) (patch : ℕ → ℕ → ℕ → ℕ → ℚ) (l : List (ℕ × ℕ))
    (hl : l.Perm (tilePairs p)) :
    l.foldl (writeTile p patch) (fun _ _ => 0) = stitch p patch :=
  foldl_perm_of_comm (writeTile p patch) (writeTile_comm p patch) hl _

/-- Witness for C9: processing the 9 tiles of `patch_size = 2000` in reversed
order gives the reference stitched image. -/
theorem claim_C9_witness :
    (tilePairs 2000).reverse.foldl
        (writeTile 2000 (fun i j r c => (i * 1000 + j * 100 + r + c : ℚ)))
        (fun _ _ => 0) =
      stitch 2000 (fun i j r c => (i * 1000 + j * 100 + r + c : ℚ)) :=
  claim_C9 2000 _ _ (List.reverse_perm _)

/- ### Trace semantics: artifact loads, inference calls, exceptions -/

/-- Numpy array dtypes relevant to the engine.  `np.zeros` with no dtype
argument allocates float64; the backends produce float32 patches; an
in-place `+=` keeps the destination buffer's dtype. -/
inductive Dtype
  | float32
  | float64
  deriving DecidableEq, Repr

/-- Observable side effects of a denoising run, in program order:
artifact-file loads, model construction (with `model.eval()`), and one
inference (forward-pass) call per tile. -/
inductive Event
  | loadIm2colTable
  | loadLayerList
  | loadWeights
  | constructModel
  | infer (i j : ℕ)
  deriving DecidableEq, Repr

/-- Python exceptions raised by the source.  A bare `assert cond` raises
`AssertionError` with no message (`none`); `np.reshape` with a size
mismatch and a failing `+=` broadcast raise `ValueError` with the numpy
message; `int(len(data)/0)` raises `ZeroDivisionError`. -/
inductive PyError
  | assertionError (msg : Option String)
  | valueError (msg : String)
  | zeroDivisionError
  deriving DecidableEq, Repr

/-- Which artifact files exist under the weights directory. -/
structure Fs where
  hasWeights : Bool
  hasLayerList : Bool
  hasIm2col : Bool
  deriving DecidableEq, Repr

/-- Shape and dtype of the returned array. -/
structure ArrMeta where
  shape : List ℕ
  dtype : Dtype
  deriving DecidableEq, Repr

def reshapeErrMsg : String := "cannot reshape array into shape (1, 1, 6000, 6000)"

def broadcastErrMsg : String := "could not broadcast input array into output shape"

/-- `True` exactly for inference events. -/
def isInferEvent : Event → Bool
  | .infer _ _ => true
  | _ => false

/-- Does the raised error carry any message at all?  A bare `assert`
raises `AssertionError()` with no message, so it cannot name the missing
path. -/
def errorHasMessage : PyError → Bool
  | .assertionError (some _) => true
  | .assertionError none => false
  | .valueError _ => true
  | .zeroDivisionError => false

/-- Length of the python slice `a[start:stop]` over an axis of length
`len` (both ends clamped into range; ℕ subtraction handles emptiness). -/
def sliceLen (len start stop : ℕ) : ℕ := min stop len - min start len

/-- Height (resp. width) of the window extracted for tile index `i`:
`noise_data[:, :, h_start:h_end, ...]` with `h_start = window_end_idx[i]`,
`h_end = window_end_idx[i+1] + 2*padding`, taken from the image padded by
`padding` on both sides (axis length `6000 + 2*padding`).  The inference
output has the same spatial shape as its input (the DnCNN architecture is
shape-preserving — its implementation lives outside this repository). -/
def extractLen (n p padding i : ℕ) : ℕ :=
  sliceLen (imageSize + 2 * padding) (bndGen n p i) (bndGen n p (i + 1) + 2 * padding)

/-- Length after the hardcoded trim `[10:-10]` on one axis: the slice keeps
indices `10 ≤ t < len − 10`, i.e. `len − 20` entries (0 when shorter). -/
def trimLen (len : ℕ) : ℕ := len - 10 - 10

/-- Height (resp. width) of the destination window
`full[:, :, window_end_idx[i]:window_end_idx[i+1], ...]` in the
6000-long axis of the output buffer. -/
def destLen (n p i : ℕ) : ℕ := sliceLen imageSize (bndGen n p i) (bndGen n p (i + 1))

/-- Numpy broadcast compatibility of a source axis against a destination
axis for an in-place `+=`: lengths must agree, or the source length is 1. -/
def broadcastOk (src dst : ℕ) : Bool := src == dst || src == 1

/-- One tile of the `denoise_torch` loop, i.e. one `torch_grid_window` call
followed by the trim and the `+=` write.  In program order: `np.pad` (no
event), `assert model_path.exists()`, model construction + `load_state_dict`
+ `model.eval()`, the forward pass, the trim, and the broadcast-checked
write into `full`. -/
def torchTile (fs : Fs) (n p padding : ℕ) (ij : ℕ × ℕ) :
    List Event × Except PyError Unit :=
  if fs.hasWeights then
    let th := trimLen (extractLen n p padding ij.1)
    let tw := trimLen (extractLen n p padding ij.2)
    let evs := [Event.constructModel, Event.loadWeights, Event.infer ij.1 ij.2]
    if broadcastOk th (destLen n p ij.1) && broadcastOk tw (destLen n p ij.2) then
      (evs, .ok ())
    else
      (evs, .error (.valueError broadcastErrMsg))
  else ([], .error (.assertionError none))

/-- One tile of the `denoise_numpy` loop: window extraction from the padded
image, the forward pass, the trim, and the broadcast-checked write. -/
def numpyTile (n p padding : ℕ) (ij : ℕ × ℕ) :
    List Event × Except PyError Unit :=
  let th := trimLen (extractLen n p padding ij.1)
  let tw := trimLen (extractLen n p padding ij.2)
  if broadcastOk th (destLen n p ij.1) && broadcastOk tw (destLen n p ij.2) then
    ([Event.infer ij.1 ij.2], .ok ())
  else
    ([Event.infer ij.1 ij.2], .error (.valueError broadcastErrMsg))

/-- Run the per-tile step over the tile list, accumulating events and
stopping at the first exception. -/
def runTiles (step : ℕ × ℕ → List Event × Except PyError Unit) :
    List (ℕ × ℕ) → List Event × Except PyError Unit
  | [] => ([], .ok ())
  | t :: ts =>
    match step t with
    | (evs, .error e) => (evs, .error e)
    | (evs, .ok ()) =>
      let rest := runTiles step ts
      (evs ++ rest.1, rest.2)

/-- Trace semantics of `denoise_torch(data, ...)`.  `dataLen` is
`len(data)` (the first-axis length) and `dataSize` the total element count.
Program order: `np.reshape(data, (1, 1, 6000, 6000))` (raises on a size
mismatch), `patchs_per_dim = int(len(data)/patch_size)` (raises on
`patch_size = 0`), the boundary list, `full = np.zeros((1, 1, 6000, 6000))`
(float64), the nested tile loop, and `return full[0][0]`. -/
def denoiseTorchRun (fs : Fs) (dataLen dataSize p padding : ℕ) :
    List Event × Except PyError ArrMeta :=
  if dataSize ≠ 1 * 1 * (imageSize * imageSize) then
    ([], .error (.valueError reshapeErrMsg))
  else if p = 0 then ([], .error .zeroDivisionError)
  else
    let r := runTiles (torchTile fs dataLen p padding) (tilePairsGen dataLen p)
    (r.1, r.2.map (fun _ => ⟨[imageSize, imageSize], Dtype.float64⟩))

/-- Trace semantics of `denoise_numpy(data, ...)`.  Program order: the two
`assert ....exists()` checks for the im2col index table and the layer list,
their `np.load`s, the weights `assert` and `torch.load`, then
`np.reshape`, `np.pad`, the boundary list, `np.zeros` (float64), the tile
loop, and `return full[0][0]`. -/
def denoiseNumpyRun (fs : Fs) (dataLen dataSize p padding : ℕ) :
    List Event × Except PyError ArrMeta :=
  if fs.hasIm2col = false then ([], .error (.assertionError none))
  else if fs.hasLayerList = false then ([], .error (.assertionError none))
  else
    let loads₀ := [Event.loadIm2colTable, Event.loadLayerList]
    if fs.hasWeights = false then (loads₀, .error (.assertionError none))
    else
      let loads := loads₀ ++ [Event.loadWeights]
      if dataSize ≠ 1 * 1 * (imageSize * imageSize) then
        (loads, .error (.valueError reshapeErrMsg))
      else if p = 0 then (loads, .error .zeroDivisionError)
      else
        let r := runTiles (numpyTile dataLen p padding) (tilePairsGen dataLen p)
        (loads ++ r.1, r.2.map (fun _ => ⟨[imageSize, imageSize], Dtype.float64⟩))

/- ### Facts about the runs -/

/-- With the default `padding = 10`, the hardcoded trim `[10:-10]` happens
to produce exactly the destination-window length on every tile. -/
theorem tile_trim_eq_dest (p i : ℕ) :
    trimLen (extractLen imageSize p 10 i) = destLen imageSize p i := by
  have h1 : bnd p i ≤ bnd p (i + 1) := bnd_mono p (Nat.le_succ i)
  have h2 : bnd p (i + 1) ≤ imageSize := bnd_le_imageSize p (i + 1)
  have h3 : bnd p i ≤ imageSize := bnd_le_imageSize p i
  show (min (bnd p (i + 1) + 2 * 10) (imageSize + 2 * 10)
      - min (bnd p i) (imageSize + 2 * 10)) - 10 - 10
    = min (bnd p (i + 1)) imageSize - min (bnd p i) imageSize
  omega

theorem torchTile_eq_ok {fs : Fs} (hw : fs.hasWeights = true) (p : ℕ)
    (ij : ℕ × ℕ) :
    torchTile fs imageSize p 10 ij =
      ([Event.constructModel, Event.loadWeights, Event.infer ij.1 ij.2],
        .ok ()) := by
  unfold torchTile
  rw [hw]
  rw [if_pos rfl]
  rw [tile_trim_eq_dest p ij.1, tile_trim_eq_dest p ij.2]
  simp [broadcastOk]

theorem numpyTile_eq_ok (p : ℕ) (ij : ℕ × ℕ) :
    numpyTile imageSize p 10 ij = ([Event.infer ij.1 ij.2], .ok ()) := by
  unfold numpyTile
  rw [tile_trim_eq_dest p ij.1, tile_trim_eq_dest p ij.2]
  simp [broadcastOk]

/-- When every tile step succeeds, the loop completes and the trace is the
concatenation of the per-tile traces. -/
theorem runTiles_of_ok {step : ℕ × ℕ → List Event × Except PyError Unit}
    {f : ℕ × ℕ → List Event} (l : List (ℕ × ℕ))
    (h : ∀ t ∈ l, step t = (f t, .ok ())) :
    runTiles step l = (l.flatMap f, .ok ()) := by
  induction l with
  | nil => rfl
  | cons t ts ih =>
    have ht := h t (by simp)
    have hts := ih (fun t' ht' => h t' (by simp [ht']))
    simp only [runTiles, ht, hts, List.flatMap_cons]

theorem count_flatMap_eq {f : ℕ × ℕ → List Event} {e : Event} {m : ℕ}
    (l : List (ℕ × ℕ)) (h : ∀ t ∈ l, (f t).count e = m) :
    (l.flatMap f).count e = l.length * m := by
  induction l with
  | nil => simp
  | cons t ts ih =>
    rw [List.flatMap_cons, List.count_append, h t (by simp),
      ih (fun t' ht' => h t' (by simp [ht']))]
    simp [List.length_cons]
    ring

theorem dataSize_check_pass :
    ¬ (imageSize * imageSize ≠ 1 * 1 * (imageSize * imageSize)) := by
  norm_num

/-- Successful `denoise_torch` run on a 6000×6000 input with the default
`padding = 10`: per tile the model is constructed and its weights loaded,
then one inference runs; the result is the float64 6000×6000 image. -/
theorem denoiseTorchRun_of_ok {fs : Fs} (hw : fs.hasWeights = true)
    {p : ℕ} (hp : p ≠ 0) :
    denoiseTorchRun fs imageSize (imageSize * imageSize) p 10 =
      ((tilePairs p).flatMap (fun ij =>
          [Event.constructModel, Event.loadWeights, Event.infer ij.1 ij.2]),
        .ok ⟨[imageSize, imageSize], Dtype.float64⟩) := by
  have hrun := runTiles_of_ok (tilePairsGen imageSize p)
    (fun t _ => torchTile_eq_ok hw p t)
  simp only [denoiseTorchRun, if_neg dataSize_check_pass, if_neg hp, hrun]
  rfl

/-- Successful `denoise_numpy` run on a 6000×6000 input with the default
`padding = 10`: the three artifacts are loaded once, before the loop, then
one inference runs per tile. -/
theorem denoiseNumpyRun_of_ok {fs : Fs} (h1 : fs.hasIm2col = true)
    (h2 : fs.hasLayerList = true) (h3 : fs.hasWeights = true)
    {p : ℕ} (hp : p ≠ 0) :
    denoiseNumpyRun fs imageSize (imageSize * imageSize) p 10 =
      ([Event.loadIm2colTable, Event.loadLayerList, Event.loadWeights] ++
          (tilePairs p).flatMap (fun ij => [Event.infer ij.1 ij.2]),
        .ok ⟨[imageSize, imageSize], Dtype.float64⟩) := by
  have hrun := runTiles_of_ok (tilePairsGen imageSize p)
    (fun t _ => numpyTile_eq_ok p t)
  simp only [denoiseNumpyRun, h1, h2, h3, Bool.true_eq_false, if_neg,
    if_neg dataSize_check_pass, if_neg hp, hrun]
  rfl

/-- **C2 (code evaluation).** The claim says both functions trim exactly
`padding` pixels from every side of the inference result, for every
`padding ≥ 0`, so that the trimmed tile shape equals the destination shape.
The source instead trims the hardcoded constant 10 (`[:, :, 10:-10, 10:-10]`).
At `patch_size = 2000, padding = 5` the trimmed tile is 1990×1990 against a
2000×2000 destination, and both runs abort with a broadcast `ValueError`;
in general the trimmed length is `tile + 2·padding − 20`, matching the
destination only at `padding = 10`. -/
theorem claim_C2_code_evaluation :
    trimLen (extractLen imageSize 2000 5 0) = 1990 ∧
    destLen imageSize 2000 0 = 2000 ∧
    (denoiseTorchRun ⟨true, true, true⟩ 6000 (6000 * 6000) 2000 5).2
        = .error (.valueError broadcastErrMsg) ∧
    (denoiseNumpyRun ⟨true, true, true⟩ 6000 (6000 * 6000) 2000 5).2
        = .error (.valueError broadcastErrMsg) ∧
    trimLen (extractLen imageSize 2000 10 0) = destLen imageSize 2000 0 := by
  exact ⟨by decide, by decide, rfl, rfl, by decide⟩

/-- **C3 (counterexample).** The claim says the returned array holds float32
values.  On the concrete default configuration the run returns a 6000×6000
array of dtype float64: `full = np.zeros((1, 1, 6000, 6000))` allocates
float64 and the in-place `+=` keeps that dtype. -/
theorem claim_C3_counterexample :
    (denoiseTorchRun ⟨true, true, true⟩ 6000 (6000 * 6000) 2000 10).2
        = .ok ⟨[6000, 6000], Dtype.float64⟩ ∧
    (denoiseNumpyRun ⟨true, true, true⟩ 6000 (6000 * 6000) 2000 10).2
        = .ok ⟨[6000, 6000], Dtype.float64⟩ ∧
    Dtype.float64 ≠ Dtype.float32 := by
  exact ⟨rfl, rfl, by decide⟩

/-- **C3 (amended).** For every `patch_size ≥ 1` with the default
`padding = 10` (the only padding the hardcoded trim supports, see C2), both
functions return a 2D array with the input's 6000×6000 shape — the leading
sample and channel axes are dropped — but of dtype float64, not float32. -/
theorem claim_C3_amended (p : ℕ) (hp : 1 ≤ p) :
    (denoiseTorchRun ⟨true, true, true⟩ imageSize (imageSize * imageSize) p 10).2
        = .ok ⟨[imageSize, imageSize], Dtype.float64⟩ ∧
    (denoiseNumpyRun ⟨true, true, true⟩ imageSize (imageSize * imageSize) p 10).2
        = .ok ⟨[imageSize, imageSize], Dtype.float64⟩ := by
  constructor
  · rw [denoiseTorchRun_of_ok rfl (by omega)]
  · rw [denoiseNumpyRun_of_ok rfl rfl rfl (by omega)]

/-- Witness for the amended C3 at `patch_size = 2000`. -/
theorem claim_C3_amended_witness :
    (denoiseTorchRun ⟨true, true, true⟩ imageSize (imageSize * imageSize) 2000 10).2
        = .ok ⟨[imageSize, imageSize], Dtype.float64⟩ ∧
    (denoiseNumpyRun ⟨true, true, true⟩ imageSize (imageSize * imageSize) 2000 10).2
        = .ok ⟨[imageSize, imageSize], Dtype.float64⟩ :=
  claim_C3_amended 2000 (by decide)

/-- **C5 (counterexample).** The claim says the model artifacts are loaded
and the network constructed exactly once per denoising run for both
backends.  In the default torch configuration (`patch_size = 2000`, 9
tiles) the weight file is loaded and the model constructed 9 times — once
per tile, inside `torch_grid_window`. -/
theorem claim_C5_counterexample :
    (denoiseTorchRun ⟨true, true, true⟩ 6000 (6000 * 6000) 2000 10).1.count
        Event.loadWeights = 9 ∧
    (denoiseTorchRun ⟨true, true, true⟩ 6000 (6000 * 6000) 2000 10).1.count
        Event.constructModel = 9 ∧ (9 : ℕ) ≠ 1 := by
  exact ⟨rfl, rfl, by decide⟩

/-- **C5 (amended).** Within one run with the default `padding = 10`:
`denoise_numpy` loads each artifact (weights, layer list, im2col table)
exactly once, before any tile; `denoise_torch` constructs the model and
loads the weight file once per tile, i.e. `patches_per_dim²` times. -/
theorem claim_C5_amended (p : ℕ) :
    (denoiseTorchRun ⟨true, true, true⟩ imageSize (imageSize * imageSize) p 10).1.count
        Event.loadWeights = patchsPerDim p * patchsPerDim p ∧
    (denoiseTorchRun ⟨true, true, true⟩ imageSize (imageSize * imageSize) p 10).1.count
        Event.constructModel = patchsPerDim p * patchsPerDim p ∧
    (denoiseNumpyRun ⟨true, true, true⟩ imageSize (imageSize * imageSize) p 10).1.count
        Event.loadWeights = 1 ∧
    (denoiseNumpyRun ⟨true, true, true⟩ imageSize (imageSize * imageSize) p 10).1.count
        Event.loadLayerList = 1 ∧
    (denoiseNumpyRun ⟨true, true, true⟩ imageSize (imageSize * imageSize) p 10).1.count
        Event.loadIm2colTable = 1 := by
  rcases Nat.eq_zero_or_pos p with rfl | hp
  · refine ⟨?_, ?_, ?_, ?_, ?_⟩ <;> decide
  · have hT := @denoiseTorchRun_of_ok ⟨true, true, true⟩ rfl p (by omega)
    have hN := @denoiseNumpyRun_of_ok ⟨true, true, true⟩ rfl rfl rfl p (by omega)
    rw [hT, hN]
    refine ⟨?_, ?_, ?_, ?_, ?_⟩
    · rw [count_flatMap_eq (f := fun ij =>
          [Event.constructModel, Event.loadWeights, Event.infer ij.1 ij.2])
          (e := Event.loadWeights) (m := 1) _ (fun t _ => rfl),
        tilePairs_length, Nat.mul_one]
    · rw [count_flatMap_eq (f := fun ij =>
          [Event.constructModel, Event.loadWeights, Event.infer ij.1 ij.2])
          (e := Event.constructModel) (m := 1) _ (fun t _ => rfl),
        tilePairs_length, Nat.mul_one]
    · rw [List.count_append, count_flatMap_eq
          (f := fun ij => [Event.infer ij.1 ij.2]) (e := Event.loadWeights)
          (m := 0) _ (fun t _ => rfl), Nat.mul_zero, Nat.add_zero]
      rfl
    · rw [List.count_append, count_flatMap_eq
          (f := fun ij => [Event.infer ij.1 ij.2]) (e := Event.loadLayerList)
          (m := 0) _ (fun t _ => rfl), Nat.mul_zero, Nat.add_zero]
      rfl
    · rw [List.count_append, count_flatMap_eq
          (f := fun ij => [Event.infer ij.1 ij.2]) (e := Event.loadIm2colTable)
          (m := 0) _ (fun t _ => rfl), Nat.mul_zero, Nat.add_zero]
      rfl

/-- **C6 (counterexample).** The claim says a missing artifact file makes the
denoise call fail before any tile inference with a clear error naming the
missing path.  With the weights file missing: at `patch_size = 2000`
`denoise_torch` raises a bare `AssertionError` carrying no message at all
(so no path is named), and at `patch_size = 7000` (zero tiles) it does not
fail — the missing file is never checked and the zero image is returned. -/
theorem claim_C6_counterexample :
    (denoiseTorchRun ⟨false, true, true⟩ 6000 (6000 * 6000) 2000 10).2
        = .error (.assertionError none) ∧
    errorHasMessage (.assertionError none) = false ∧
    (denoiseTorchRun ⟨false, true, true⟩ 6000 (6000 * 6000) 7000 10).2
        = .ok ⟨[6000, 6000], Dtype.float64⟩ := by
  exact ⟨rfl, rfl, rfl⟩

/-- **C6 (amended).** If a referenced artifact file is missing,
`denoise_numpy` fails before any tile inference (zero inference events)
with a bare `AssertionError` carrying no message, so the missing path is
not named; `denoise_torch` does the same provided `patches_per_dim ≥ 1`
(its check runs inside the first per-tile call), while for
`patch_size > 6000` the missing file goes unnoticed (see the
counterexample). -/
theorem claim_C6_amended (fs : Fs) (p padding : ℕ)
    (hw : fs.hasWeights = false) (hp : 1 ≤ patchsPerDim p) :
    ((denoiseTorchRun fs imageSize (imageSize * imageSize) p padding).2
        = .error (.assertionError none) ∧
      (denoiseTorchRun fs imageSize (imageSize * imageSize) p padding).1.countP
        isInferEvent = 0) ∧
    (∀ fs' : Fs,
      fs'.hasIm2col = false ∨ fs'.hasLayerList = false ∨ fs'.hasWeights = false →
      (denoiseNumpyRun fs' imageSize (imageSize * imageSize) p padding).2
          = .error (.assertionError none) ∧
      (denoiseNumpyRun fs' imageSize (imageSize * imageSize) p padding).1.countP
        isInferEvent = 0) := by
  have hp0 : p ≠ 0 := by
    intro h; rw [h] at hp; simp [patchsPerDim, patchsPerDimGen] at hp
  constructor
  · have hne : tilePairsGen imageSize p ≠ [] := by
      intro h
      have hlen := tilePairs_length p
      have h0 : (tilePairs p).length = 0 := by
        show (tilePairsGen imageSize p).length = 0
        rw [h]; rfl
      rw [h0] at hlen
      have hnz : patchsPerDim p * patchsPerDim p ≠ 0 :=
        Nat.mul_ne_zero (by omega) (by omega)
      omega
    obtain ⟨t, ts, hts⟩ := List.exists_cons_of_ne_nil hne
    have hstep : torchTile fs imageSize p padding t
        = ([], .error (.assertionError none)) := by
      unfold torchTile
      rw [hw]
      simp
    simp only [denoiseTorchRun, if_neg dataSize_check_pass, if_neg hp0, hts,
      runTiles, hstep]
    exact ⟨rfl, rfl⟩
  · intro fs' hmiss
    rcases h2c : fs'.hasIm2col with htf | htf
    · simp only [denoiseNumpyRun, h2c, if_pos rfl]
      exact ⟨rfl, rfl⟩
    · rcases h2l : fs'.hasLayerList with hlf | hlf
      · simp only [denoiseNumpyRun, h2c, h2l, Bool.true_eq_false, if_neg,
          if_pos rfl]
        exact ⟨rfl, rfl⟩
      · have h2w : fs'.hasWeights = false := by
          rcases hmiss with h | h | h
          · rw [h2c] at h; cases h
          · rw [h2l] at h; cases h
          · exact h
        simp only [denoiseNumpyRun, h2c, h2l, h2w, Bool.true_eq_false, if_neg,
          if_pos rfl]
        exact ⟨rfl, rfl⟩

/-- Witness for the amended C6: weights file missing, `patch_size = 2000`,
default padding, for the torch path and the numpy path. -/
theorem claim_C6_amended_witness :
    ((denoiseTorchRun ⟨false, true, true⟩ imageSize (imageSize * imageSize) 2000 10).2
        = .error (.assertionError none) ∧
      (denoiseTorchRun ⟨false, true, true⟩ imageSize (imageSize * imageSize) 2000 10).1.countP
        isInferEvent = 0) ∧
    ((denoiseNumpyRun ⟨false, true, true⟩ imageSize (imageSize * imageSize) 2000 10).2
        = .error (.assertionError none) ∧
      (denoiseNumpyRun ⟨false, true, true⟩ imageSize (imageSize * imageSize) 2000 10).1.countP
        isInferEvent = 0) :=
  ⟨(claim_C6_amended ⟨false, true, true⟩ 2000 10 rfl (by decide)).1,
    (claim_C6_amended ⟨false, true, true⟩ 2000 10 rfl (by decide)).2
      ⟨false, true, true⟩ (Or.inr (Or.inr rfl))⟩

/-- **C10.** Any input whose total element count differs from `6000·6000`
makes both functions raise the reshape `ValueError` at
`np.reshape(data, (1, 1, 6000, 6000))`, before any tile inference and
regardless of `patch_size` and `padding` (for `denoise_torch` the reshape
is the very first statement, so the trace is empty; `denoise_numpy` has
loaded its artifacts but performed zero inferences).  The boundary list
would be computed from `len(data)`, but the reshape failure precedes it. -/
theorem claim_C10 (fs : Fs) (dataLen dataSize p padding : ℕ)
    (hs : dataSize ≠ 6000 * 6000) (h1 : fs.hasIm2col = true)
    (h2 : fs.hasLayerList = true) (h3 : fs.hasWeights = true) :
    denoiseTorchRun fs dataLen dataSize p padding
        = ([], .error (.valueError reshapeErrMsg)) ∧
    (denoiseNumpyRun fs dataLen dataSize p padding).2
        = .error (.valueError reshapeErrMsg) ∧
    (denoiseNumpyRun fs dataLen dataSize p padding).1.countP isInferEvent
        = 0 := by
  have hrun : denoiseNumpyRun fs dataLen dataSize p padding
      = ([Event.loadIm2colTable, Event.loadLayerList] ++ [Event.loadWeights],
          .error (.valueError reshapeErrMsg)) := by
    simp [denoiseNumpyRun, h1, h2, h3, imageSize, hs]
  refine ⟨?_, ?_, ?_⟩
  · simp [denoiseTorchRun, imageSize, hs]
  · rw [hrun]
  · rw [hrun]
    rfl

/-- Witness for C10: a 1000×1000 input (10⁶ elements) with all artifacts
present. -/
theorem claim_C10_witness :
    denoiseTorchRun ⟨true, true, true⟩ 1000 (1000 * 1000) 2000 10
        = ([], .error (.valueError reshapeErrMsg)) ∧
    (denoiseNumpyRun ⟨true, true, true⟩ 1000 (1000 * 1000) 2000 10).2
        = .error (.valueError reshapeErrMsg) ∧
    (denoiseNumpyRun ⟨true, true, true⟩ 1000 (1000 * 1000) 2000 10).1.countP
        isInferEvent = 0 :=
  claim_C10 ⟨true, true, true⟩ 1000 (1000 * 1000) 2000 10 (by decide) rfl rfl rfl

/- ### Heap model: which buffers does a run write? -/

/-- `np.pad(x, ((0,0), (0,0), (padding,padding), (padding,padding)))` on the
spatial axes of a 6000×6000 image: zeros outside, a shifted copy inside. -/
def padImage (padding : ℕ) (img : ℕ → ℕ → ℚ) : ℕ → ℕ → ℚ :=
  fun r c =>
    if padding ≤ r ∧ r < padding + imageSize ∧
        padding ≤ c ∧ c < padding + imageSize
    then img (r - padding) (c - padding) else 0

/-- A heap of array buffers: buffer id ↦ 2D contents, plus the next fresh
id.  The caller's `data` lives in buffer 0; `np.reshape` returns a view of
the same buffer, while `np.pad`, `np.zeros`, tensor transfers and model
outputs allocate fresh buffers. -/
structure Heap where
  mem : ℕ → ℕ → ℕ → ℚ
  next : ℕ

/-- Allocate a fresh buffer holding `v`; returns the new heap and the id. -/
def heapAlloc (h : Heap) (v : ℕ → ℕ → ℚ) : Heap × ℕ :=
  (⟨fun b => if b = h.next then v else h.mem b, h.next + 1⟩, h.next)

/-- Overwrite the contents of buffer `b` (an in-place `+=` writes the
updated contents back to the same buffer). -/
def heapWrite (h : Heap) (b : ℕ) (v : ℕ → ℕ → ℚ) : Heap :=
  ⟨fun b' => if b' = b then v else h.mem b', h.next⟩

theorem heapAlloc_mem_lt (h : Heap) (v : ℕ → ℕ → ℚ) {b : ℕ}
    (hb : b < h.next) : ((heapAlloc h v).1).mem b = h.mem b := by
  simp only [heapAlloc]
  rw [if_neg (by omega)]

theorem heapAlloc_next (h : Heap) (v : ℕ → ℕ → ℚ) :
    ((heapAlloc h v).1).next = h.next + 1 := rfl

theorem heapWrite_mem_ne (h : Heap) (b : ℕ) (v : ℕ → ℕ → ℚ) {b' : ℕ}
    (hne : b' ≠ b) : (heapWrite h b v).mem b' = h.mem b' := by
  simp only [heapWrite]
  rw [if_neg hne]

theorem heapWrite_next (h : Heap) (b : ℕ) (v : ℕ → ℕ → ℚ) :
    (heapWrite h b v).next = h.next := rfl

/-- One `torch_grid_window` call on the heap: `np.pad` copies the full
reshaped image (a view of buffer 0) into a fresh buffer, the window slice
is transferred to a device tensor (fresh buffer), the model output comes
back as a fresh host array; the caller's buffers are only read.  `net` is
the DnCNN forward pass (implemented outside this repository). -/
def torchGridWindowHeap (net : (ℕ → ℕ → ℚ) → ℕ → ℕ → ℚ) (p padding : ℕ)
    (h : Heap) (i j : ℕ) : Heap × (ℕ → ℕ → ℚ) :=
  let a₁ := heapAlloc h (padImage padding (h.mem 0))
  let window : ℕ → ℕ → ℚ :=
    fun r c => (a₁.1).mem a₁.2 (bnd p i + r) (bnd p j + c)
  let a₂ := heapAlloc a₁.1 window
  let a₃ := heapAlloc a₂.1 (net ((a₂.1).mem a₂.2))
  (a₃.1, (a₃.1).mem a₃.2)

/-- Heap semantics of `denoise_torch`: `data` sits in buffer 0,
`noisy = np.reshape(data, ...)` is a view of buffer 0, `full = np.zeros`
allocates buffer 1, and each loop iteration calls `torch_grid_window` and
then writes the trimmed patch into buffer 1 with `+=`. -/
def denoiseTorchHeap (net : (ℕ → ℕ → ℚ) → ℕ → ℕ → ℚ) (p padding : ℕ)
    (data : ℕ → ℕ → ℚ) : Heap :=
  let h₀ : Heap := ⟨fun b => if b = 0 then data else fun _ _ => 0, 1⟩
  let aFull := heapAlloc h₀ (fun _ _ => 0)
  (tilePairs p).foldl
    (fun h ij =>
      let res := torchGridWindowHeap net p padding h ij.1 ij.2
      heapWrite res.1 aFull.2
        (writeTile p (fun _ _ => trimPatch res.2)
          ((res.1).mem aFull.2) ij))
    aFull.1

/-- Heap semantics of `denoise_numpy`: `data` sits in buffer 0, the reshape
is a view of buffer 0, `np.pad` copies it into buffer 1, `np.zeros`
allocates buffer 2, and each loop iteration reads a window view of
buffer 1, allocates the model output, and writes the trimmed patch into
buffer 2 with `+=`. -/
def denoiseNumpyHeap (net : (ℕ → ℕ → ℚ) → ℕ → ℕ → ℚ) (p padding : ℕ)
    (data : ℕ → ℕ → ℚ) : Heap :=
  let h₀ : Heap := ⟨fun b => if b = 0 then data else fun _ _ => 0, 1⟩
  let aPad := heapAlloc h₀ (padImage padding (h₀.mem 0))
  let aFull := heapAlloc aPad.1 (fun _ _ => 0)
  (tilePairs p).foldl
    (fun h ij =>
      let window : ℕ → ℕ → ℚ :=
        fun r c => h.mem aPad.2 (bnd p ij.1 + r) (bnd p ij.2 + c)
      let aOut := heapAlloc h (net window)
      heapWrite aOut.1 aFull.2
        (writeTile p (fun _ _ => trimPatch ((aOut.1).mem aOut.2))
          ((aOut.1).mem aFull.2) ij))
    aFull.1

/-- Folding preserves any invariant preserved by each step. -/
theorem foldl_invariant {α β : Type} (P : β → Prop) (f : β → α → β)
    (hf : ∀ b a, P b → P (f b a)) :
    ∀ (l : List α) (b : β), P b → P (l.foldl f b) := by
  intro l
  induction l with
  | nil => intro b hb; exact hb
  | cons x xs ih => intro b hb; exact ih _ (hf b x hb)

/-- **C8.** Neither `denoise_torch` nor `denoise_numpy` mutates the caller's
input array: after either run, buffer 0 (the input) still holds exactly its
original contents, for every model, patch size, padding and input.  The
reshape is a view of the input buffer, but every subsequent operation
either allocates a fresh buffer (`np.pad`, `np.zeros`, tensor transfers,
model outputs) or writes the separately allocated output buffer. -/
theorem claim_C8 (netT netN : (ℕ → ℕ → ℚ) → ℕ → ℕ → ℚ) (p padding : ℕ)
    (data : ℕ → ℕ → ℚ) :
    (denoiseTorchHeap netT p padding data).mem 0 = data ∧
    (denoiseNumpyHeap netN p padding data).mem 0 = data := by
  constructor
  · have key := foldl_invariant (fun h : Heap => h.mem 0 = data ∧ 2 ≤ h.next)
      (fun h ij =>
        let res := torchGridWindowHeap netT p padding h ij.1 ij.2
        heapWrite res.1 1
          (writeTile p (fun _ _ => trimPatch res.2) ((res.1).mem 1) ij))
      (fun h ij hP => by
        obtain ⟨hmem, hnext⟩ := hP
        constructor
        · rw [heapWrite_mem_ne _ _ _ (by omega)]
          show ((heapAlloc _ _).1).mem 0 = data
          rw [heapAlloc_mem_lt _ _ (by
            show (0:ℕ) < ((heapAlloc _ _).1).next
            rw [heapAlloc_next]
            show 0 < ((heapAlloc _ _).1).next + 1
            rw [heapAlloc_next]
            omega)]
          rw [heapAlloc_mem_lt _ _ (by
            show (0:ℕ) < ((heapAlloc _ _).1).next
            rw [heapAlloc_next]
            omega)]
          rw [heapAlloc_mem_lt _ _ (by omega)]
          exact hmem
        · rw [heapWrite_next]
          show 2 ≤ ((heapAlloc _ _).1).next
          rw [heapAlloc_next, heapAlloc_next, heapAlloc_next]
          omega)
      (tilePairs p)
    exact (key _ ⟨by simp [heapAlloc], by simp [heapAlloc]⟩).1
  · have key := foldl_invariant (fun h : Heap => h.mem 0 = data ∧ 3 ≤ h.next)
      (fun h ij =>
        let window : ℕ → ℕ → ℚ :=
          fun r c => h.mem 1 (bnd p ij.1 + r) (bnd p ij.2 + c)
        let aOut := heapAlloc h (netN window)
        heapWrite aOut.1 2
          (writeTile p (fun _ _ => trimPatch ((aOut.1).mem aOut.2))
            ((aOut.1).mem 2) ij))
      (fun h ij hP => by
        obtain ⟨hmem, hnext⟩ := hP
        constructor
        · rw [heapWrite_mem_ne _ _ _ (by omega)]
          rw [heapAlloc_mem_lt _ _ (by omega)]
          exact hmem
        · rw [heapWrite_next, heapAlloc_next]
          omega)
      (tilePairs p)
    exact (key _ ⟨by simp [heapAlloc], by simp [heapAlloc]⟩).1

/- ### The two inference backends over exact rationals

The backend implementations (`DnCNN_B` in `torch_model` and `np_DnCNN` in
`numpy_model`, under `fpoffline/denoise_utils`) are not part of this
repository's sources; they are modelled from the specification: the same
fixed architecture, executed either as direct convolutions (accelerated
backend) or via an image-to-column matrix multiplication (portable
backend), with identical frozen parameters, inference-mode batch
normalization and the fixed pointwise activation.  Arithmetic is exact
(ℚ); IEEE rounding is outside the model. -/

/-- A multi-channel feature map: channel, row, column ↦ value. -/
abbrev FMap := ℕ → ℕ → ℕ → ℚ

/-- Modelled from the spec: zero-padding of an `H × W` feature map by `pad`
pixels on every spatial side (boundary positions of the im2col gather
reference this zero region). -/
def padFM (pad H W : ℕ) (x : FMap) : FMap :=
  fun ch r c =>
    if pad ≤ r ∧ r < pad + H ∧ pad ≤ c ∧ c < pad + W
    then x ch (r - pad) (c - pad) else 0

/-- Modelled from the spec: one layer's frozen parameters — convolution
kernel `K` (out-channel, in-channel, kernel-row, kernel-col), and the
batch-norm per-channel scale `gamma`, shift `beta`, running mean `mu` and
reciprocal standard deviation `rsig` (standing for the precomputed
`1/√(running_var + ε)`, since square roots are not representable over ℚ).
`useBn`/`useRelu` select the layer's stages (the first and last layers of
the architecture omit some stages). -/
structure ConvLayer where
  cin : ℕ
  kh : ℕ
  kw : ℕ
  pad : ℕ
  K : ℕ → ℕ → ℕ → ℕ → ℚ
  gamma : ℕ → ℚ
  beta : ℕ → ℚ
  mu : ℕ → ℚ
  rsig : ℕ → ℚ
  useBn : Bool
  useRelu : Bool

/-- Modelled from the spec: the accelerated backend's convolution — for
each output channel and position, the kernel-weighted sum over
(input-channel, kernel-row, kernel-column) of the zero-padded input. -/
def conv2dDirect (L : ConvLayer) (H W : ℕ) (x : FMap) : FMap :=
  fun o r c =>
    ∑ ci ∈ Finset.range L.cin, ∑ kr ∈ Finset.range L.kh,
      ∑ kc ∈ Finset.range L.kw,
        L.K o ci kr kc * padFM L.pad H W x ci (r + kr) (c + kc)

/-- Number of columns of the im2col matrix: one per (input-channel,
kernel-row, kernel-column) triple. -/
def colCount (L : ConvLayer) : ℕ := L.cin * (L.kh * L.kw)

/-- Input channel encoded by flat column index `t`. -/
def colChan (L : ConvLayer) (t : ℕ) : ℕ := t / (L.kh * L.kw)

/-- Kernel row encoded by flat column index `t`. -/
def colKr (L : ConvLayer) (t : ℕ) : ℕ := t % (L.kh * L.kw) / L.kw

/-- Kernel column encoded by flat column index `t`. -/
def colKc (L : ConvLayer) (t : ℕ) : ℕ := t % (L.kh * L.kw) % L.kw

/-- Modelled from the spec (§4.4 step 1): the im2col expansion — each row
is one output position `(r, c)`, each column one (channel, kernel-row,
kernel-column) triple; the entry gathers the zero-padded input element the
precomputed index table points at. -/
def im2colMatrix (L : ConvLayer) (H W : ℕ) (x : FMap) (r c t : ℕ) : ℚ :=
  padFM L.pad H W x (colChan L t) (r + colKr L t) (c + colKc L t)

/-- Modelled from the spec (§4.4 step 2): the trained kernel reshaped into
a matrix of shape (output-channels × flattened-kernel-size). -/
def kernelMatrix (L : ConvLayer) (o t : ℕ) : ℚ :=
  L.K o (colChan L t) (colKr L t) (colKc L t)

/-- Modelled from the spec (§4.4 step 2): the portable backend's
convolution — one matrix multiplication of the reshaped kernel against the
expanded input matrix, reshaped back into a feature map. -/
def conv2dIm2col (L : ConvLayer) (H W : ℕ) (x : FMap) : FMap :=
  fun o r c =>
    ∑ t ∈ Finset.range (colCount L),
      kernelMatrix L o t * im2colMatrix L H W x r c t

/-- Splitting a sum over `range (m * n)` into blocks of length `n`. -/
theorem sum_range_mul_split (m n : ℕ) (f : ℕ → ℚ) :
    ∑ t ∈ Finset.range (m * n), f t
      = ∑ q ∈ Finset.range m, ∑ s ∈ Finset.range n, f (q * n + s) := by
  induction m with
  | zero => simp
  | succ k ih =>
    rw [Nat.succ_mul, Finset.sum_range_add, ih, Finset.sum_range_succ]

theorem encode_lt {kh kw kr kc : ℕ} (hkr : kr < kh) (hkc : kc < kw) :
    kr * kw + kc < kh * kw := by
  have h2 : (kr + 1) * kw ≤ kh * kw :=
    Nat.mul_le_mul_right kw (Nat.succ_le_of_lt hkr)
  have h3 : (kr + 1) * kw = kr * kw + kw := by ring
  omega

theorem colChan_encode (L : ConvLayer) {u : ℕ} (ci : ℕ)
    (hu : u < L.kh * L.kw) : colChan L (ci * (L.kh * L.kw) + u) = ci := by
  unfold colChan
  rw [Nat.mul_comm ci (L.kh * L.kw), Nat.mul_add_div (by omega),
    Nat.div_eq_of_lt hu, Nat.add_zero]

theorem colMod_encode (L : ConvLayer) {u : ℕ} (ci : ℕ)
    (hu : u < L.kh * L.kw) :
    (ci * (L.kh * L.kw) + u) % (L.kh * L.kw) = u := by
  rw [Nat.mul_comm ci (L.kh * L.kw), Nat.mul_add_mod, Nat.mod_eq_of_lt hu]

theorem colKr_encode (L : ConvLayer) {kr kc : ℕ} (ci : ℕ)
    (hkr : kr < L.kh) (hkc : kc < L.kw) :
    colKr L (ci * (L.kh * L.kw) + (kr * L.kw + kc)) = kr := by
  unfold colKr
  rw [colMod_encode L ci (encode_lt hkr hkc), Nat.mul_comm kr L.kw,
    Nat.mul_add_div (by omega), Nat.div_eq_of_lt hkc, Nat.add_zero]

theorem colKc_encode (L : ConvLayer) {kr kc : ℕ} (ci : ℕ)
    (hkr : kr < L.kh) (hkc : kc < L.kw) :
    colKc L (ci * (L.kh * L.kw) + (kr * L.kw + kc)) = kc := by
  unfold colKc
  rw [colMod_encode L ci (encode_lt hkr hkc), Nat.mul_comm kr L.kw,
    Nat.mul_add_mod, Nat.mod_eq_of_lt hkc]

/-- The im2col matrix multiplication computes exactly the direct
convolution: the flat column sum regroups into the triple sum over
(channel, kernel-row, kernel-column). -/
theorem conv2dIm2col_eq_direct (L : ConvLayer) (H W : ℕ) (x : FMap) :
    conv2dIm2col L H W x = conv2dDirect L H W x := by
  funext o r c
  simp only [conv2dIm2col, conv2dDirect, colCount]
  rw [sum_range_mul_split]
  refine Finset.sum_congr rfl (fun ci _ => ?_)
  rw [sum_range_mul_split]
  refine Finset.sum_congr rfl (fun kr hkr => ?_)
  refine Finset.sum_congr rfl (fun kc hkc => ?_)
  rw [Finset.mem_range] at hkr hkc
  unfold kernelMatrix im2colMatrix
  rw [colChan_encode L ci (encode_lt hkr hkc), colKr_encode L ci hkr hkc,
    colKc_encode L ci hkr hkc]

/-- Modelled from the spec (§4.4 step 3): inference-mode batch
normalization with the stored per-channel statistics; skipped for layers
without a bn stage.  Identical in both backends. -/
def bnInfer (L : ConvLayer) (x : FMap) : FMap :=
  fun ch r c =>
    if L.useBn then
      L.gamma ch * ((x ch r c - L.mu ch) * L.rsig ch) + L.beta ch
    else x ch r c

/-- Modelled from the spec (§4.4 step 4): the fixed pointwise activation
(ReLU); skipped for the final layer.  Identical in both backends. -/
def reluFM (L : ConvLayer) (x : FMap) : FMap :=
  fun ch r c => if L.useRelu then max (x ch r c) 0 else x ch r c

/-- One layer of the accelerated backend: direct convolution, then batch
normalization, then activation. -/
def layerForwardDirect (H W : ℕ) (x : FMap) (L : ConvLayer) : FMap :=
  reluFM L (bnInfer L (conv2dDirect L H W x))

/-- One layer of the portable backend: im2col convolution, then batch
normalization, then activation. -/
def layerForwardIm2col (H W : ℕ) (x : FMap) (L : ConvLayer) : FMap :=
  reluFM L (bnInfer L (conv2dIm2col L H W x))

/-- Modelled from the spec: the accelerated backend's forward pass —
the layers applied in architecture order. -/
def networkDirect (H W : ℕ) (layers : List ConvLayer) (x : FMap) : FMap :=
  layers.foldl (layerForwardDirect H W) x

/-- Modelled from the spec (§4.4 step 5): the portable backend's forward
pass — the same layers in the order given by the layer list. -/
def networkIm2col (H W : ℕ) (layers : List ConvLayer) (x : FMap) : FMap :=
  layers.foldl (layerForwardIm2col H W) x

/-- Per-tile inference of the accelerated backend on a 2D window: the
window becomes a single-channel feature map, and channel 0 of the network
output is the denoised patch. -/
def torchInfer (layers : List ConvLayer) (Hw Ww : ℕ) (w : ℕ → ℕ → ℚ) :
    ℕ → ℕ → ℚ :=
  fun r c => networkDirect Hw Ww layers (fun _ r' c' => w r' c') 0 r c

/-- Per-tile inference of the portable backend on a 2D window. -/
def numpyInfer (layers : List ConvLayer) (Hw Ww : ℕ) (w : ℕ → ℕ → ℚ) :
    ℕ → ℕ → ℚ :=
  fun r c => networkIm2col Hw Ww layers (fun _ r' c' => w r' c') 0 r c

/-- The window of the padded full image extracted for tile `(i, j)`:
local coordinates offset by `window_end_idx[i]`, `window_end_idx[j]`. -/
def extractWindow (padding : ℕ) (img : ℕ → ℕ → ℚ) (p i j : ℕ) :
    ℕ → ℕ → ℚ :=
  fun r c => padImage padding img (bnd p i + r) (bnd p j + c)

/-- The value-level pipeline shared by both denoise functions: pad the
reshaped image, extract each tile's window, run the given per-tile
inference, trim with the hardcoded margin 10, and stitch with `+=` into
the zero buffer. -/
def denoiseValue (p padding : ℕ)
    (net : ℕ → ℕ → (ℕ → ℕ → ℚ) → ℕ → ℕ → ℚ) (img : ℕ → ℕ → ℚ) :
    ℕ → ℕ → ℚ :=
  stitch p (fun i j => trimPatch
    (net (extractLen imageSize p padding i) (extractLen imageSize p padding j)
      (extractWindow padding img p i j)))

theorem networkIm2col_eq_direct (Hw Ww : ℕ) (layers : List ConvLayer) :
    networkIm2col Hw Ww layers = networkDirect Hw Ww layers := by
  funext x
  unfold networkIm2col networkDirect
  have hstep : layerForwardIm2col Hw Ww = layerForwardDirect Hw Ww := by
    funext y L
    unfold layerForwardIm2col layerForwardDirect
    rw [conv2dIm2col_eq_direct]
  rw [hstep]

/-- **C7.** For the same input image, the same trained parameter set
(`layers`) and the same `(patch_size, padding)`, the output of the portable
im2col backend pipeline agrees with the output of the accelerated backend
pipeline at every pixel within the 10⁻³ tolerance — in the exact-arithmetic
model the two agree exactly, because the im2col matrix multiplication
equals the direct convolution layer by layer. -/
theorem claim_C7 (p padding : ℕ) (layers : List ConvLayer)
    (img : ℕ → ℕ → ℚ) (r c : ℕ) :
    |denoiseValue p padding (numpyInfer layers) img r c
        - denoiseValue p padding (torchInfer layers) img r c| < 1 / 1000 := by
  have hnet : numpyInfer layers = torchInfer layers := by
    funext Hw Ww w r' c'
    unfold numpyInfer torchInfer
    rw [networkIm2col_eq_direct]
  rw [hnet, sub_self, abs_zero]
  norm_num

end Denoise
